import Mathlib

/-!
# Verification of `fetch_narrative_watchlists.py`

A shallow embedding of the crypto-narrative TradingView watchlist generator,
together with proofs about its aggregation, pagination, rate limiting,
Link-header parsing, HTTP error classification, and file writing.

Python dicts (and `OrderedDict`s) are modelled as association lists in
insertion order; assignment `d[k] = v` is `dictInsert` (update in place if the
key exists, else append at the end), lookup is `dictGet?`, and `k in d` is
`dictContains`.
-/

/-- Python dict assignment `d[k] = v`: if `k` is already a key, replace its
value in place (keeping its position, as `dict`/`OrderedDict` do); otherwise
append the new binding at the end. -/
def dictInsert {β : Type} (d : List (String × β)) (k : String) (v : β) :
    List (String × β) :=
  if d.any (fun p => p.1 == k) then
    d.map (fun p => if p.1 == k then (k, v) else p)
  else
    d ++ [(k, v)]

/-- Python dict lookup `d[k]` (first binding for `k`, `none` if absent). -/
def dictGet? {β : Type} (d : List (String × β)) (k : String) : Option β :=
  (d.find? (fun p => p.1 == k)).map (fun p => p.2)

/-- Python membership test `k in d`. -/
def dictContains {β : Type} (d : List (String × β)) (k : String) : Bool :=
  d.any (fun p => p.1 == k)

/-- A CoinGecko category, as consumed by `main`: `{id: ..., name: ...}`. -/
structure Category where
  id : String
  name : String
deriving DecidableEq, Repr

/-- `OrderedDict((cat['name'], []) for cat in categories)` from `main`
(line 181): repeated dict assignment of an empty list under each
category name. -/
def initCategorized (categories : List Category) :
    List (String × List String) :=
  categories.foldl (fun d cat => dictInsert d cat.name []) []

/-- `categorized_tickers[cat['name']].append(v)`: mutate the list stored under
an existing key in place. (In `main` the key is always present, having been
initialised from the same category list.) -/
def appendAt (d : List (String × List String)) (k : String) (v : String) :
    List (String × List String) :=
  d.map (fun p => if p.1 == k then (p.1, p.2 ++ [v]) else p)

/-- The aggregation step of `main` (lines 181-185):

    categorized_tickers = OrderedDict((cat['name'], []) for cat in categories)
    for cat in categories:
        for coin_id in category_coins[cat['id']]:
            if coin_id in ticker_dict:
                categorized_tickers[cat['name']].append(ticker_dict[coin_id])

`categoryCoins` models the lookup `category_coins[cat['id']]`. -/
def buildCategorizedTickers (categories : List Category)
    (categoryCoins : String → List String)
    (tickerDict : List (String × String)) : List (String × List String) :=
  categories.foldl
    (fun d cat =>
      (categoryCoins cat.id).foldl
        (fun d coinId =>
          match dictGet? tickerDict coinId with
          | some t => appendAt d cat.name t
          | none => d)
        d)
    (initCategorized categories)

/-- The per-category index expression built inside
`create_tradingview_index_string` (line 162):
`'(' + '*'.join(tickers[:10]) + f")^(1/{len(tickers[:10])})"`. -/
def indexString (tickers : List String) : String :=
  "(" ++ String.intercalate "*" (tickers.take 10) ++
    ")^(1/" ++ toString (tickers.take 10).length ++ ")"

/-- `create_tradingview_index_string` (line 162): a dict comprehension over the
categorized tickers, so each key is (re)inserted with its index expression. -/
def create_tradingview_index_string
    (categorized_tickers : List (String × List String)) :
    List (String × String) :=
  categorized_tickers.foldl
    (fun acc p => dictInsert acc p.1 (indexString p.2)) []

section DictLemmas

variable {β : Type}

theorem dictInsert_not_mem {d : List (String × β)} {k : String} (v : β)
    (h : d.all (fun p => p.1 ≠ k)) : dictInsert d k v = d ++ [(k, v)] := by
  unfold dictInsert
  rw [if_neg]
  intro hany
  rw [List.any_eq_true] at hany
  obtain ⟨p, hp, hpk⟩ := hany
  simp only [List.all_eq_true, decide_eq_true_eq] at h
  exact h p hp (by simpa using hpk)

theorem mem_dictInsert {d : List (String × β)} {k : String} {v : β}
    {q : String × β} (h : q ∈ dictInsert d k v) : q ∈ d ∨ q = (k, v) := by
  unfold dictInsert at h
  split at h
  · rw [List.mem_map] at h
    obtain ⟨p, hp, hpq⟩ := h
    by_cases hk : p.1 == k
    · right; rw [if_pos hk] at hpq; exact hpq.symm
    · left; rw [if_neg hk] at hpq; exact hpq ▸ hp
  · rw [List.mem_append] at h
    rcases h with h | h
    · exact Or.inl h
    · simp only [List.mem_singleton] at h; exact Or.inr h

theorem dictInsert_keys_sub {d : List (String × β)} {k k' : String} {v : β}
    (h : k' ∈ d.map Prod.fst) : k' ∈ (dictInsert d k v).map Prod.fst := by
  unfold dictInsert
  split
  · rw [List.map_map, List.mem_map]
    rw [List.mem_map] at h
    obtain ⟨p, hp, hpk⟩ := h
    refine ⟨p, hp, ?_⟩
    by_cases hk : p.1 == k
    · simp only [Function.comp_apply, if_pos hk]
      simp only [beq_iff_eq] at hk
      simpa [hk] using hpk
    · simp only [Function.comp_apply, if_neg hk]
      exact hpk
  · rw [List.map_append, List.mem_append]
    exact Or.inl h

theorem dictInsert_key_mem (d : List (String × β)) (k : String) (v : β) :
    k ∈ (dictInsert d k v).map Prod.fst := by
  unfold dictInsert
  split
  · rename_i h
    rw [List.any_eq_true] at h
    obtain ⟨p, hp, hpk⟩ := h
    rw [List.map_map, List.mem_map]
    refine ⟨p, hp, ?_⟩
    simp only [beq_iff_eq] at hpk
    simp [hpk]
  · simp

/-- Folding dict insertions over pairwise-distinct fresh keys appends the
corresponding bindings in order. -/
theorem foldl_dictInsert_eq_append {γ : Type} (key : γ → String) (val : γ → β) :
    ∀ (l : List γ) (init : List (String × β)),
      (l.map key).Nodup →
      (∀ x ∈ l, key x ∉ init.map Prod.fst) →
      l.foldl (fun acc x => dictInsert acc (key x) (val x)) init =
        init ++ l.map (fun x => (key x, val x))
  | [], init, _, _ => by simp
  | x :: xs, init, hnd, hfresh => by
    simp only [List.foldl_cons]
    have hx : dictInsert init (key x) (val x) = init ++ [(key x, val x)] := by
      apply dictInsert_not_mem
      simp only [List.all_eq_true, decide_eq_true_eq]
      intro p hp hpk
      exact hfresh x (List.mem_cons_self x xs)
        (hpk ▸ List.mem_map_of_mem Prod.fst hp)
    rw [hx]
    rw [List.map_cons, List.nodup_cons] at hnd
    rw [foldl_dictInsert_eq_append key val xs (init ++ [(key x, val x)]) hnd.2]
    · simp
    · intro y hy
      simp only [List.map_append, List.mem_append, List.map_cons]
      rintro (hmem | hmem)
      · exact hfresh y (List.mem_cons_of_mem x hy) hmem
      · simp only [List.map_cons, List.map_nil, List.mem_singleton] at hmem
        exact hnd.1 (hmem ▸ List.mem_map_of_mem key hy)

end DictLemmas

/-- Under distinct keys (always the case for the `OrderedDict` it receives),
the dict comprehension in `create_tradingview_index_string` is a plain map. -/
theorem create_index_eq_map (d : List (String × List String))
    (h : (d.map Prod.fst).Nodup) :
    create_tradingview_index_string d =
      d.map (fun p => (p.1, indexString p.2)) := by
  unfold create_tradingview_index_string
  have := foldl_dictInsert_eq_append (fun p : String × List String => p.1)
    (fun p : String × List String => indexString p.2) d [] (by simpa using h)
    (by simp)
  simpa using this

/-- C2: `create_tradingview_index_string` maps each category to
`(t1*...*tN)^(1/N)` built from the first `min 10 (length)` tickers joined by
`*`; three tickers give `(A*B*C)^(1/3)`, twelve tickers use only the first ten
and end in `^(1/10)`, and zero tickers give the degenerate `()^(1/0)`. -/
theorem create_index_string_spec :
    (∀ d : List (String × List String), (d.map Prod.fst).Nodup →
      create_tradingview_index_string d =
        d.map (fun p => (p.1,
          "(" ++ String.intercalate "*" (p.2.take 10) ++ ")^(1/" ++
            toString (min 10 p.2.length) ++ ")"))) ∧
    create_tradingview_index_string [("X", ["A", "B", "C"])] =
      [("X", "(A*B*C)^(1/3)")] ∧
    create_tradingview_index_string
      [("Y", ["T1", "T2", "T3", "T4", "T5", "T6", "T7", "T8", "T9", "T10",
              "T11", "T12"])] =
      [("Y", "(T1*T2*T3*T4*T5*T6*T7*T8*T9*T10)^(1/10)")] ∧
    create_tradingview_index_string [("Z", [])] = [("Z", "()^(1/0)")] := by
  refine ⟨?_, by decide, by decide, by decide⟩
  intro d h
  rw [create_index_eq_map d h]
  apply List.map_congr_left
  intro p _
  unfold indexString
  rw [List.length_take]

/-- Witness for C2 at a concrete input. -/
theorem create_index_string_spec_witness :
    (([("X", ["A", "B", "C"])].map
        (Prod.fst : String × List String → String)).Nodup) ∧
    create_tradingview_index_string [("X", ["A", "B", "C"])] =
      [("X", "(A*B*C)^(1/3)")] :=
  ⟨by decide,
    (create_index_string_spec.1 [("X", ["A", "B", "C"])] (by decide)).trans
      (by decide)⟩

/-- C10: `create_tradingview_index_string` keeps exactly the input's keys in
the input's iteration order, and a category with an empty ticker list still
appears, bound to the degenerate index string. -/
theorem create_index_preserves_keys :
    ∀ d : List (String × List String), (d.map Prod.fst).Nodup →
      (create_tradingview_index_string d).map Prod.fst = d.map Prod.fst ∧
      ∀ c, (c, ([] : List String)) ∈ d →
        (c, "()^(1/0)") ∈ create_tradingview_index_string d := by
  intro d h
  rw [create_index_eq_map d h]
  constructor
  · rw [List.map_map]; rfl
  · intro c hc
    have : ((c, ([] : List String)).1, indexString (c, ([] : List String)).2) ∈
        d.map (fun p => (p.1, indexString p.2)) :=
      List.mem_map_of_mem _ hc
    simpa using this

/-- Witness for C10 at a concrete input. -/
theorem create_index_preserves_keys_witness :
    (([("X", ([] : List String))].map Prod.fst).Nodup) ∧
    (create_tradingview_index_string [("X", [])]).map Prod.fst = ["X"] ∧
    ("X", "()^(1/0)") ∈ create_tradingview_index_string [("X", [])] :=
  ⟨by decide,
    ((create_index_preserves_keys [("X", [])] (by decide)).1.trans (by decide)),
    (create_index_preserves_keys [("X", [])] (by decide)).2 "X" (by decide)⟩

/-- `initCategorized` over pairwise-distinct names binds each name to `[]`. -/
theorem initCategorized_eq (categories : List Category)
    (h : (categories.map Category.name).Nodup) :
    initCategorized categories =
      categories.map (fun c => (c.name, ([] : List String))) := by
  unfold initCategorized
  have := foldl_dictInsert_eq_append Category.name
    (fun _ => ([] : List String)) categories [] h (by simp)
  simpa using this

/-- `appendAt` on a key that occurs exactly once appends to that binding. -/
theorem appendAt_eq (pre post : List (String × List String)) (k : String)
    (v : List String) (x : String)
    (hpre : ∀ p ∈ pre, p.1 ≠ k) (hpost : ∀ p ∈ post, p.1 ≠ k) :
    appendAt (pre ++ (k, v) :: post) k x = pre ++ (k, v ++ [x]) :: post := by
  unfold appendAt
  rw [List.map_append, List.map_cons]
  have h1 : pre.map
      (fun p => if p.1 == k then (p.1, p.2 ++ [x]) else p) = pre := by
    conv_rhs => rw [← List.map_id pre]
    apply List.map_congr_left
    intro p hp
    rw [if_neg (by simp [hpre p hp])]
    rfl
  have h2 : post.map
      (fun p => if p.1 == k then (p.1, p.2 ++ [x]) else p) = post := by
    conv_rhs => rw [← List.map_id post]
    apply List.map_congr_left
    intro p hp
    rw [if_neg (by simp [hpost p hp])]
    rfl
  rw [h1, h2, if_pos (by simp)]

/-- The inner coin loop of the aggregation appends exactly the resolved
tickers, in coin-list order, to the unique binding for the category name. -/
theorem aggregation_inner_loop (td : List (String × String))
    (coins : List String) :
    ∀ (pre post : List (String × List String)) (k : String) (v : List String),
      (∀ p ∈ pre, p.1 ≠ k) → (∀ p ∈ post, p.1 ≠ k) →
      coins.foldl
        (fun d coinId =>
          match dictGet? td coinId with
          | some t => appendAt d k t
          | none => d)
        (pre ++ (k, v) :: post) =
        pre ++ (k, v ++ coins.filterMap (fun c => dictGet? td c)) :: post := by
  induction coins with
  | nil => intro pre post k v _ _; simp
  | cons c cs ih =>
    intro pre post k v hpre hpost
    cases h : dictGet? td c with
    | none =>
      simp only [List.foldl_cons, List.filterMap_cons, h]
      exact ih pre post k v hpre hpost
    | some t =>
      simp only [List.foldl_cons, List.filterMap_cons, h]
      rw [appendAt_eq pre post k v t hpre hpost,
        ih pre post k (v ++ [t]) hpre hpost]
      simp

/-- The outer category loop of the aggregation, over pairwise-distinct
category names. -/
theorem aggregation_outer_loop (f : String → List String)
    (td : List (String × String)) :
    ∀ (cats : List Category) (pre : List (String × List String))
      (g : Category → List String),
      (cats.map Category.name).Nodup →
      (∀ c ∈ cats, ∀ p ∈ pre, p.1 ≠ c.name) →
      cats.foldl
        (fun d cat =>
          (f cat.id).foldl
            (fun d coinId =>
              match dictGet? td coinId with
              | some t => appendAt d cat.name t
              | none => d)
            d)
        (pre ++ cats.map (fun c => (c.name, g c))) =
        pre ++ cats.map
          (fun c => (c.name, g c ++ (f c.id).filterMap (fun x => dictGet? td x)))
  | [], pre, g, _, _ => by simp
  | c :: cs, pre, g, hnd, hfresh => by
    rw [List.map_cons, List.map_cons, List.foldl_cons]
    rw [List.map_cons, List.nodup_cons] at hnd
    have hpost : ∀ p ∈ cs.map (fun c' => (c'.name, g c')), p.1 ≠ c.name := by
      intro p hp
      rw [List.mem_map] at hp
      obtain ⟨c', hc', rfl⟩ := hp
      intro hEq
      exact hnd.1 (hEq ▸ List.mem_map_of_mem Category.name hc')
    have hpre : ∀ p ∈ pre, p.1 ≠ c.name :=
      fun p hp => hfresh c (List.mem_cons_self c cs) p hp
    rw [aggregation_inner_loop td (f c.id) pre
      (cs.map (fun c' => (c'.name, g c'))) c.name (g c) hpre hpost]
    have hrearrange :
        pre ++ (c.name, g c ++ (f c.id).filterMap (fun x => dictGet? td x)) ::
            cs.map (fun c' => (c'.name, g c')) =
          (pre ++ [(c.name, g c ++ (f c.id).filterMap (fun x => dictGet? td x))])
            ++ cs.map (fun c' => (c'.name, g c')) := by
      simp
    rw [hrearrange]
    rw [aggregation_outer_loop f td cs
      (pre ++ [(c.name, g c ++ (f c.id).filterMap (fun x => dictGet? td x))])
      g hnd.2 ?_]
    · simp
    · intro c' hc' p hp
      rw [List.mem_append] at hp
      rcases hp with hp | hp
      · exact hfresh c' (List.mem_cons_of_mem c hc') p hp
      · simp only [List.mem_singleton] at hp
        subst hp
        intro hEq
        dsimp only at hEq
        exact hnd.1 (by rw [hEq]; exact List.mem_map_of_mem Category.name hc')

/-- C1 fails as stated: two categories that share a display name are merged
into a single binding by the aggregation step, so the output keys are not
"the category names in the original category order", and the shared binding
holds both categories' tickers. -/
theorem aggregation_order_counterexample :
    buildCategorizedTickers [⟨"a", "X"⟩, ⟨"b", "X"⟩]
        (fun i => if i = "a" then ["c1"] else ["c2"])
        [("c1", "T1"), ("c2", "T2")] = [("X", ["T1", "T2"])] ∧
    ([⟨"a", "X"⟩, ⟨"b", "X"⟩] : List Category).map Category.name =
      ["X", "X"] ∧
    ¬ (buildCategorizedTickers [⟨"a", "X"⟩, ⟨"b", "X"⟩]
        (fun i => if i = "a" then ["c1"] else ["c2"])
        [("c1", "T1"), ("c2", "T2")] =
      ([⟨"a", "X"⟩, ⟨"b", "X"⟩] : List Category).map
        (fun c => (c.name,
          ((fun i => if i = "a" then ["c1"] else ["c2"]) c.id).filterMap
            (fun coin =>
              dictGet? [("c1", "T1"), ("c2", "T2")] coin)))) := by
  refine ⟨by decide, by decide, by decide⟩

/-- C1 (amended): provided the category names are pairwise distinct, the
aggregation step produces one binding per category, in the original category
order, whose value is exactly the resolved tickers of that category's coins,
in coin order; a coin absent from the ticker dict contributes nothing. -/
theorem aggregation_preserves_order (cats : List Category)
    (f : String → List String) (td : List (String × String))
    (h : (cats.map Category.name).Nodup) :
    buildCategorizedTickers cats f td =
      cats.map (fun c =>
        (c.name, (f c.id).filterMap (fun coin => dictGet? td coin))) := by
  unfold buildCategorizedTickers
  rw [initCategorized_eq cats h]
  have := aggregation_outer_loop f td cats [] (fun _ => []) h (by simp)
  simpa using this

/-- Witness for C1 (amended) at the spec's own example: categories `[X, Y]`
with coins `X:[c1,c2]`, `Y:[c3]` and ticker dict `{c2: T2, c3: T3}` give
`{X: [T2], Y: [T3]}`. -/
theorem aggregation_preserves_order_witness :
    (([⟨"x", "X"⟩, ⟨"y", "Y"⟩] : List Category).map Category.name).Nodup ∧
    buildCategorizedTickers [⟨"x", "X"⟩, ⟨"y", "Y"⟩]
        (fun i => if i = "x" then ["c1", "c2"] else ["c3"])
        [("c2", "T2"), ("c3", "T3")] =
      [("X", ["T2"]), ("Y", ["T3"])] :=
  ⟨by decide,
    (aggregation_preserves_order [⟨"x", "X"⟩, ⟨"y", "Y"⟩]
        (fun i => if i = "x" then ["c1", "c2"] else ["c3"])
        [("c2", "T2"), ("c3", "T3")] (by decide)).trans (by decide)⟩

/-- The paging loop of `fetch_coins_by_category` (lines 78-97). `pages j`
models the outcome of `safe_request` for page `j`: `none` is the soft-failure
sentinel `(None, None)`, `some l` the list of coin ids parsed from the page
body. `maxCoins` is an integer because the CLI accepts any int. The second
component counts requests issued. Python's `if response:` treats an empty
list like a failure (both falsy), so an empty page stops the loop through the
same `else` branch; the result is unchanged either way. -/
def fetchCoinsLoop (pages : Nat → Option (List String)) (maxCoins : Int)
    (pageNo : Nat) (coins : List String) : List String × Nat :=
  if _h : (coins.length : Int) < maxCoins then
    match pages pageNo with
    | none => (coins, 1)
    | some resp =>
      if _hr : resp.isEmpty then (coins, 1)
      else
        let coins2 := coins ++ resp.take (maxCoins - coins.length).toNat
        if hstop : maxCoins ≤ (coins2.length : Int) ∨ resp.length < 250 then
          (coins2, 1)
        else
          let r := fetchCoinsLoop pages maxCoins (pageNo + 1) coins2
          (r.1, r.2 + 1)
  else (coins, 0)
termination_by (maxCoins - coins.length).toNat
decreasing_by
  simp only [coins2, List.length_append, List.length_take] at hstop ⊢
  omega

/-- `fetch_coins_by_category(category_id, category_name, rate_limiter,
max_coins)` as a function of the page outcomes and the `max_coins` bound:
start at page 1 with no coins accumulated. -/
def fetch_coins_by_category (pages : Nat → Option (List String))
    (maxCoins : Int) : List String × Nat :=
  fetchCoinsLoop pages maxCoins 1 []

/-- Concatenation of the page bodies for pages `start, ..., start+n-1`
(a failed page contributes nothing). -/
def pagesSeg (pages : Nat → Option (List String)) (start n : Nat) :
    List String :=
  ((List.range n).map (fun i => (pages (start + i)).getD [])).flatten

theorem pagesSeg_zero (pages : Nat → Option (List String)) (start : Nat) :
    pagesSeg pages start 0 = [] := rfl

theorem pagesSeg_succ (pages : Nat → Option (List String)) (start n : Nat) :
    pagesSeg pages start (n + 1) =
      (pages start).getD [] ++ pagesSeg pages (start + 1) n := by
  unfold pagesSeg
  rw [List.range_succ_eq_map]
  simp only [List.map_cons, List.flatten_cons, List.map_map, Nat.add_zero]
  have hmap : List.map ((fun i => (pages (start + i)).getD []) ∘ Nat.succ)
      (List.range n) =
      List.map (fun i => (pages (start + 1 + i)).getD []) (List.range n) := by
    apply List.map_congr_left
    intro i _
    simp only [Function.comp_apply]
    rw [show start + Nat.succ i = start + 1 + i from by omega]
  rw [hmap]

theorem fetchCoinsLoop_at_max {pages : Nat → Option (List String)}
    {maxCoins : Int} {pageNo : Nat} {coins : List String}
    (h : ¬ ((coins.length : Int) < maxCoins)) :
    fetchCoinsLoop pages maxCoins pageNo coins = (coins, 0) := by
  rw [fetchCoinsLoop, dif_neg h]

theorem fetchCoinsLoop_fail {pages : Nat → Option (List String)}
    {maxCoins : Int} {pageNo : Nat} {coins : List String}
    (h : (coins.length : Int) < maxCoins) (hp : pages pageNo = none) :
    fetchCoinsLoop pages maxCoins pageNo coins = (coins, 1) := by
  rw [fetchCoinsLoop, dif_pos h, hp]

theorem fetchCoinsLoop_empty {pages : Nat → Option (List String)}
    {maxCoins : Int} {pageNo : Nat} {coins : List String}
    (h : (coins.length : Int) < maxCoins) (hp : pages pageNo = some []) :
    fetchCoinsLoop pages maxCoins pageNo coins = (coins, 1) := by
  rw [fetchCoinsLoop, dif_pos h, hp]
  rfl

theorem fetchCoinsLoop_last {pages : Nat → Option (List String)}
    {maxCoins : Int} {pageNo : Nat} {coins resp : List String}
    (h : (coins.length : Int) < maxCoins) (hp : pages pageNo = some resp)
    (hr : ¬ (resp.isEmpty = true))
    (hstop : maxCoins ≤
        (((coins ++ resp.take (maxCoins - coins.length).toNat).length : Nat) :
          Int) ∨ resp.length < 250) :
    fetchCoinsLoop pages maxCoins pageNo coins =
      (coins ++ resp.take (maxCoins - coins.length).toNat, 1) := by
  rw [fetchCoinsLoop, dif_pos h, hp]
  dsimp only
  rw [dif_neg hr, dif_pos hstop]

theorem fetchCoinsLoop_cont {pages : Nat → Option (List String)}
    {maxCoins : Int} {pageNo : Nat} {coins resp : List String}
    (h : (coins.length : Int) < maxCoins) (hp : pages pageNo = some resp)
    (hr : ¬ (resp.isEmpty = true))
    (hstop : ¬ (maxCoins ≤
        (((coins ++ resp.take (maxCoins - coins.length).toNat).length : Nat) :
          Int) ∨ resp.length < 250)) :
    fetchCoinsLoop pages maxCoins pageNo coins =
      ((fetchCoinsLoop pages maxCoins (pageNo + 1)
          (coins ++ resp.take (maxCoins - coins.length).toNat)).1,
        (fetchCoinsLoop pages maxCoins (pageNo + 1)
          (coins ++ resp.take (maxCoins - coins.length).toNat)).2 + 1) := by
  rw [fetchCoinsLoop, dif_pos h, hp]
  dsimp only
  rw [dif_neg hr, dif_neg hstop]

theorem pagesSeg_one (pages : Nat → Option (List String)) (start : Nat) :
    pagesSeg pages start 1 = (pages start).getD [] := by
  have h := pagesSeg_succ pages start 0
  rw [pagesSeg_zero] at h
  simpa using h

theorem take_concat_head {α : Type} (resp X : List α) (t : Nat)
    (h : resp.length ≤ t) :
    (resp ++ X).take t = resp ++ X.take (t - resp.length) := by
  rw [List.take_append_eq_append_take, List.take_of_length_le h]

/-- Invariant of the paging loop: the budget is respected, the accumulated
result is the truncated concatenation of the pages requested, and every
request before the last followed a full page fetched while under budget. -/
theorem fetchCoinsLoop_spec (pages : Nat → Option (List String))
    (maxCoins : Int)
    (hps : ∀ j r, pages j = some r → r.length ≤ 250) :
    ∀ (n pageNo : Nat) (coins : List String),
      (maxCoins - coins.length).toNat ≤ n → (coins.length : Int) ≤ maxCoins →
      ((fetchCoinsLoop pages maxCoins pageNo coins).1.length : Int) ≤
          maxCoins ∧
      (fetchCoinsLoop pages maxCoins pageNo coins).1 =
        coins ++ (pagesSeg pages pageNo
          (fetchCoinsLoop pages maxCoins pageNo coins).2).take
            (maxCoins - coins.length).toNat ∧
      (∀ k, k + 1 < (fetchCoinsLoop pages maxCoins pageNo coins).2 →
        ∃ resp, pages (pageNo + k) = some resp ∧ resp.length = 250 ∧
          (coins.length : Int) + (pagesSeg pages pageNo (k + 1)).length <
            maxCoins) := by
  intro n
  induction n with
  | zero =>
    intro pageNo coins hn hle
    have hguard : ¬ ((coins.length : Int) < maxCoins) := by omega
    rw [fetchCoinsLoop_at_max hguard]
    refine ⟨hle, by simp [pagesSeg_zero], by intro k hk; omega⟩
  | succ n ih =>
    intro pageNo coins hn hle
    by_cases hguard : (coins.length : Int) < maxCoins
    · cases hp : pages pageNo with
      | none =>
        rw [fetchCoinsLoop_fail hguard hp]
        refine ⟨hle, ?_, by intro k hk; omega⟩
        rw [pagesSeg_one, hp]
        simp
      | some resp =>
        by_cases hr : resp.isEmpty
        · have hresp : resp = [] := by simpa using hr
          subst hresp
          rw [fetchCoinsLoop_empty hguard hp]
          refine ⟨hle, ?_, by intro k hk; omega⟩
          rw [pagesSeg_one, hp]
          simp
        · by_cases hstop : maxCoins ≤
              (((coins ++
                  resp.take (maxCoins - coins.length).toNat).length : Nat) :
                Int) ∨ resp.length < 250
          · rw [fetchCoinsLoop_last hguard hp hr hstop]
            refine ⟨?_, ?_, by intro k hk; omega⟩
            · simp only [List.length_append, List.length_take]
              omega
            · rw [pagesSeg_one, hp]
              simp
          · -- the loop continues to the next page
            have h250 : resp.length = 250 := by
              push_neg at hstop
              exact le_antisymm (hps pageNo resp hp) hstop.2
            have hlen2 : ((coins ++
                resp.take (maxCoins - coins.length).toNat).length : Int) <
                maxCoins := by
              push_neg at hstop
              exact hstop.1
            have htake : resp.take (maxCoins - coins.length).toNat = resp := by
              apply List.take_of_length_le
              simp only [List.length_append, List.length_take] at hlen2
              omega
            rw [htake] at hlen2
            have hmeas : (maxCoins - ((coins ++ resp).length : Int)).toNat ≤
                n := by
              simp only [List.length_append] at hlen2 ⊢
              have hpos : 0 < resp.length := by omega
              omega
            obtain ⟨ih1, ih2, ih3⟩ := ih (pageNo + 1) (coins ++ resp) hmeas
              (le_of_lt hlen2)
            rw [fetchCoinsLoop_cont hguard hp hr hstop]
            rw [htake]
            refine ⟨ih1, ?_, ?_⟩
            · have hresplen : resp.length ≤
                  (maxCoins - ((coins.length : Nat) : Int)).toNat := by
                simp only [List.length_append] at hlen2
                omega
              rw [pagesSeg_succ, hp]
              simp only [Option.getD_some]
              rw [take_concat_head _ _ _ hresplen, ih2]
              have harith : (maxCoins - ((coins.length : Nat) : Int)).toNat -
                  resp.length =
                  (maxCoins - (((coins ++ resp).length : Nat) : Int)).toNat := by
                simp only [List.length_append]
                push_cast
                omega
              rw [harith]
              simp [List.append_assoc]
            · intro k hk
              cases k with
              | zero =>
                refine ⟨resp, by simpa using hp, h250, ?_⟩
                rw [pagesSeg_one, hp]
                simp only [Option.getD_some, List.length_append] at hlen2 ⊢
                omega
              | succ k' =>
                obtain ⟨resp', hre, hlen', hbound⟩ := ih3 k' (by omega)
                refine ⟨resp', ?_, hlen', ?_⟩
                · rw [show pageNo + (k' + 1) = pageNo + 1 + k' from by omega]
                  exact hre
                · rw [pagesSeg_succ, hp]
                  simp only [Option.getD_some, List.length_append] at hbound ⊢
                  push_cast at hbound ⊢
                  omega
    · rw [fetchCoinsLoop_at_max hguard]
      refine ⟨hle, by simp [pagesSeg_zero], by intro k hk; omega⟩

/-- C3: for a nonnegative bound `M` and page size 250, the fetched coin-id
sequence is the in-order concatenation of the page bodies truncated at `M`
(hence of length at most `M`), and every page other than the last one
requested was a full page of 250 items fetched while fewer than `M` ids had
been accumulated — so no request follows a short page, a failed request, or a
filled budget; a failed request just ends the loop with the partial result. -/
theorem fetch_coins_pagination (pages : Nat → Option (List String)) (M : Int)
    (hM : 0 ≤ M) (hps : ∀ j r, pages j = some r → r.length ≤ 250) :
    ((fetch_coins_by_category pages M).1.length : Int) ≤ M ∧
    (fetch_coins_by_category pages M).1 =
      (pagesSeg pages 1 (fetch_coins_by_category pages M).2).take M.toNat ∧
    ∀ k, k + 1 < (fetch_coins_by_category pages M).2 →
      ∃ resp, pages (1 + k) = some resp ∧ resp.length = 250 ∧
        ((pagesSeg pages 1 (k + 1)).length : Int) < M := by
  obtain ⟨h1, h2, h3⟩ := fetchCoinsLoop_spec pages M hps M.toNat 1 []
    (by simp) (by simpa using hM)
  unfold fetch_coins_by_category
  refine ⟨h1, by simpa using h2, ?_⟩
  intro k hk
  obtain ⟨resp, hre, hlen, hb⟩ := h3 k hk
  exact ⟨resp, hre, hlen, by simpa using hb⟩

/-- Witness for C3 at a concrete input (every request fails). -/
theorem fetch_coins_pagination_witness :
    ((0 : Int) ≤ 5) ∧
    (∀ j r, (fun _ : Nat => (none : Option (List String))) j = some r →
      r.length ≤ 250) ∧
    (((fetch_coins_by_category (fun _ => none) 5).1.length : Int) ≤ 5 ∧
      (fetch_coins_by_category (fun _ => none) 5).1 =
        (pagesSeg (fun _ => none) 1
          (fetch_coins_by_category (fun _ => none) 5).2).take (5 : Int).toNat ∧
      ∀ k, k + 1 < (fetch_coins_by_category (fun _ => none) 5).2 →
        ∃ resp, (fun _ : Nat => (none : Option (List String))) (1 + k) =
            some resp ∧ resp.length = 250 ∧
          ((pagesSeg (fun _ => none) 1 (k + 1)).length : Int) < 5) :=
  ⟨by decide, fun _ _ h => Option.noConfusion h,
    fetch_coins_pagination (fun _ => none) 5 (by decide)
      (fun _ _ h => Option.noConfusion h)⟩

/-- C9: a nonpositive `max_coins` bound makes the loop guard
`len(coins) < max_coins` false immediately, so no request is issued and the
empty list is returned. -/
theorem fetch_coins_nonpositive_budget (pages : Nat → Option (List String))
    (M : Int) (hM : M ≤ 0) : fetch_coins_by_category pages M = ([], 0) := by
  unfold fetch_coins_by_category
  exact fetchCoinsLoop_at_max
    (by simp only [List.length_nil, Nat.cast_zero]; omega)

/-- Witness for C9 at a concrete input. -/
theorem fetch_coins_nonpositive_budget_witness :
    ((-3 : Int) ≤ 0) ∧
    fetch_coins_by_category (fun _ => none) (-3) = ([], 0) :=
  ⟨by decide, fetch_coins_nonpositive_budget (fun _ => none) (-3) (by decide)⟩

/-- The ASCII characters matched by the regex class `\s` in
`parse_link_header`'s pattern (the inputs of interest are ASCII). -/
def isPySpace (c : Char) : Bool :=
  c = ' ' || c = '\t' || c = '\n' || c = '\r' || c = '\x0b' || c = '\x0c'

/-- Python `str.split(sep)` on a single separator character:
`''.split(',') == ['']`, and every separator starts a new chunk. -/
def splitOnChar (sep : Char) : List Char → List (List Char)
  | [] => [[]]
  | c :: rest =>
    if c = sep then [] :: splitOnChar sep rest
    else
      match splitOnChar sep rest with
      | [] => [[c]]
      | h :: t => (c :: h) :: t

/-- Split a character list at the first occurrence of `target`, returning the
part before it and the part after it; `none` if `target` does not occur.
(This is how a regex matches `([^t]+)t` : the class `[^t]` cannot cross an
occurrence of `t`, so the first occurrence is the only candidate.) -/
def splitAtFirstChar (target : Char) : List Char → Option (List Char × List Char)
  | [] => none
  | c :: rest =>
    if c = target then some ([], rest)
    else (splitAtFirstChar target rest).map (fun p => (c :: p.1, p.2))

/-- Match a literal character sequence at the head of the input, returning the
remainder on success. -/
def dropLiteral : List Char → List Char → Option (List Char)
  | [], rest => some rest
  | _ :: _, [] => none
  | l :: ls, c :: cs => if c = l then dropLiteral ls cs else none

/-- Attempt to match the regex `<([^>]+)>;\s*rel="([^"]+)"` of
`parse_link_header` (line 123) anchored at the start of the input, returning
`(url, rel)` = (group 1, group 2). Greedy `[^>]+`/`[^"]+` with a following
literal make the match deterministic, and `\s*` before the literal `rel="`
cannot backtrack, so this case analysis is exhaustive. -/
def matchLinkAt (s : List Char) : Option (String × String) :=
  match s with
  | '<' :: rest =>
    match splitAtFirstChar '>' rest with
    | some (url, rest2) =>
      if url.isEmpty then none
      else
        match rest2 with
        | ';' :: rest3 =>
          match dropLiteral ['r', 'e', 'l', '=', '"']
              (rest3.dropWhile isPySpace) with
          | some rest4 =>
            match splitAtFirstChar '"' rest4 with
            | some (rel, _) =>
              if rel.isEmpty then none
              else some (String.mk url, String.mk rel)
            | none => none
          | none => none
        | _ => none
    | none => none
  | _ => none

/-- `re.search`: try to match at each successive start position, returning
the first (leftmost) match. -/
def searchLink : List Char → Option (String × String)
  | [] => none
  | c :: rest =>
    match matchLinkAt (c :: rest) with
    | some r => some r
    | none => searchLink rest

/-- The body of the `for link in link_header.split(',')` loop of
`parse_link_header` (lines 124-127): a matching entry stores
`links[rel] = url`, anything else is skipped. -/
def linkStep (links : List (String × String)) (part : List Char) :
    List (String × String) :=
  match searchLink part with
  | some (url, rel) => dictInsert links rel url
  | none => links

/-- `parse_link_header` (lines 120-128). -/
def parse_link_header (link_header : String) : List (String × String) :=
  (splitOnChar ',' link_header.toList).foldl linkStep []

theorem linkStep_fold_mem (parts : List (List Char)) :
    ∀ (init : List (String × String)) (q : String × String),
      q ∈ parts.foldl linkStep init →
      q ∈ init ∨ ∃ part ∈ parts, searchLink part = some (q.2, q.1) := by
  induction parts with
  | nil => intro init q h; exact Or.inl (by simpa using h)
  | cons p ps ih =>
    intro init q h
    rw [List.foldl_cons] at h
    rcases ih (linkStep init p) q h with hin | ⟨part, hpart, hs⟩
    · cases hsl : searchLink p with
      | none =>
        simp only [linkStep, hsl] at hin
        exact Or.inl hin
      | some r =>
        obtain ⟨url, rel⟩ := r
        simp only [linkStep, hsl] at hin
        rcases mem_dictInsert hin with h1 | h1
        · exact Or.inl h1
        · right
          refine ⟨p, List.mem_cons_self p ps, ?_⟩
          rw [hsl, h1]
    · exact Or.inr ⟨part, List.mem_cons_of_mem p hpart, hs⟩

theorem linkStep_fold_skip (parts : List (List Char)) :
    ∀ init, (∀ part ∈ parts, searchLink part = none) →
      parts.foldl linkStep init = init := by
  induction parts with
  | nil => intro init _; rfl
  | cons p ps ih =>
    intro init h
    rw [List.foldl_cons]
    have hstep : linkStep init p = init := by
      simp only [linkStep, h p (List.mem_cons_self p ps)]
    rw [hstep]
    exact ih init (fun part hpart => h part (List.mem_cons_of_mem p hpart))

theorem linkStep_fold_keys (parts : List (List Char)) :
    ∀ init k, k ∈ init.map Prod.fst →
      k ∈ (parts.foldl linkStep init).map Prod.fst := by
  induction parts with
  | nil => intro init k h; simpa using h
  | cons p ps ih =>
    intro init k h
    rw [List.foldl_cons]
    apply ih
    cases hsl : searchLink p with
    | none => simp only [linkStep, hsl]; exact h
    | some r =>
      obtain ⟨url, rel⟩ := r
      simp only [linkStep, hsl]
      exact dictInsert_keys_sub h

theorem linkStep_fold_key_new (parts : List (List Char)) :
    ∀ init part url rel, part ∈ parts → searchLink part = some (url, rel) →
      rel ∈ (parts.foldl linkStep init).map Prod.fst := by
  induction parts with
  | nil => intro init part url rel h _; exact absurd h (List.not_mem_nil part)
  | cons p ps ih =>
    intro init part url rel hmem hsl
    rw [List.foldl_cons]
    rcases List.mem_cons.mp hmem with rfl | hmem'
    · apply linkStep_fold_keys
      have hstep : linkStep init part = dictInsert init rel url := by
        simp only [linkStep, hsl]
      rw [hstep]
      exact dictInsert_key_mem init rel url
    · exact ih (linkStep init p) part url rel hmem' hsl

/-- C5: `parse_link_header` is a total function that splits on commas and
collects `rel -> url` from every entry matching `<URL>; rel="REL"`:
the twin-entry example parses as stated; every binding in the output comes
from a matching comma-separated entry; if no entry matches, the result is
empty (malformed entries are skipped, nothing raises); and every matching
entry's rel name appears among the output's keys. -/
theorem parse_link_header_spec :
    parse_link_header
        "<https://x/y?page=2>; rel=\"next\", <https://x/y?page=9>; rel=\"last\"" =
      [("next", "https://x/y?page=2"), ("last", "https://x/y?page=9")] ∧
    (∀ s : String, ∀ q ∈ parse_link_header s,
      ∃ part ∈ splitOnChar ',' s.toList,
        searchLink part = some (q.2, q.1)) ∧
    (∀ s : String,
      (∀ part ∈ splitOnChar ',' s.toList, searchLink part = none) →
      parse_link_header s = []) ∧
    (∀ s : String, ∀ part ∈ splitOnChar ',' s.toList, ∀ url rel,
      searchLink part = some (url, rel) →
      rel ∈ (parse_link_header s).map Prod.fst) := by
  refine ⟨by decide, ?_, ?_, ?_⟩
  · intro s q h
    rcases linkStep_fold_mem (splitOnChar ',' s.toList) [] q h with h1 | h1
    · exact absurd h1 (List.not_mem_nil q)
    · exact h1
  · intro s h
    exact linkStep_fold_skip (splitOnChar ',' s.toList) [] h
  · intro s part hpart url rel hsl
    exact linkStep_fold_key_new (splitOnChar ',' s.toList) [] part url rel
      hpart hsl

/-- Witness for C5 at the spec's example header. -/
theorem parse_link_header_spec_witness :
    (("next", "https://x/y?page=2") ∈
      parse_link_header
        "<https://x/y?page=2>; rel=\"next\", <https://x/y?page=9>; rel=\"last\"") ∧
    ∃ part ∈ splitOnChar ','
        ("<https://x/y?page=2>; rel=\"next\", <https://x/y?page=9>; rel=\"last\"" :
          String).toList,
      searchLink part = some ("https://x/y?page=2", "next") :=
  ⟨by decide,
    parse_link_header_spec.2.1 _ ("next", "https://x/y?page=2") (by decide)⟩

/-- Outcome of one attempt of the GET inside `safe_request`: a 2xx success
with parsed body and headers, an `HTTPError` raised by `raise_for_status`
carrying the response status, or a network-level `RequestException` with no
response. -/
inductive HttpOutcome where
  | success (body : String) (headers : List (String × String))
  | httpError (status : Nat)
  | networkError
deriving DecidableEq, Repr

/-- `safe_request` (lines 35-52) over the queue of outcomes of its successive
attempts (the first element answers the first GET; each 429 retry consumes
the next). `none` means the queue ran out while still retrying — the code
itself would retry without bound. A 2xx gives `Except.ok (some body, some
headers)`; a non-429 HTTP error propagates as `Except.error status`; a
network failure returns the soft-failure sentinel, modelled `Except.ok
(none, none)`. The second and third components instrument the run: the
`(url, params)` pair of every request actually issued (the retry re-sends the
identical pair, line 47), and the total seconds slept in the fixed
`time.sleep(10)` backoff (line 46). -/
def safe_request (url : String) (params : List (String × String)) :
    List HttpOutcome →
      Option ((Except Nat (Option String × Option (List (String × String)))) ×
        List (String × List (String × String)) × Nat)
  | [] => none
  | .success body headers :: _ =>
    some (.ok (some body, some headers), [(url, params)], 0)
  | .httpError status :: rest =>
    if status = 429 then
      match safe_request url params rest with
      | some (res, reqs, slept) =>
        some (res, (url, params) :: reqs, slept + 10)
      | none => none
    else some (.error status, [(url, params)], 0)
  | .networkError :: _ => some (.ok (none, none), [(url, params)], 0)

/-- `fetch_categories` (lines 54-65) as a function of the body its single
`safe_request` call produced: `if categories:` is falsy for both the `None`
sentinel and an empty list, giving `[]`; otherwise truncate to `limit`. -/
def fetch_categories (resp : Option (List Category)) (limit : Nat) :
    List Category :=
  match resp with
  | some cats => if cats.isEmpty then [] else cats.take limit
  | none => []

/-- C6: `safe_request` classifies outcomes: a 2xx first attempt returns the
parsed body and headers; a non-429 error status propagates as an error to the
caller; a network-level failure returns the `(None, None)` sentinel instead
of raising; and on that sentinel the callers stop early — the coin pager
stops after the failed request keeping its partial result, and the category
fetcher returns the empty list. -/
theorem safe_request_classification :
    (∀ (url : String) (params : List (String × String)) (body : String)
        (headers : List (String × String)) (rest : List HttpOutcome),
      safe_request url params (.success body headers :: rest) =
        some (.ok (some body, some headers), [(url, params)], 0)) ∧
    (∀ (url : String) (params : List (String × String)) (status : Nat)
        (rest : List HttpOutcome), status ≠ 429 →
      safe_request url params (.httpError status :: rest) =
        some (.error status, [(url, params)], 0)) ∧
    (∀ (url : String) (params : List (String × String))
        (rest : List HttpOutcome),
      safe_request url params (.networkError :: rest) =
        some (.ok (none, none), [(url, params)], 0)) ∧
    (∀ (pages : Nat → Option (List String)) (maxCoins : Int) (pageNo : Nat)
        (coins : List String),
      (coins.length : Int) < maxCoins → pages pageNo = none →
      fetchCoinsLoop pages maxCoins pageNo coins = (coins, 1)) ∧
    (∀ limit, fetch_categories none limit = []) := by
  refine ⟨fun _ _ _ _ _ => rfl, ?_, fun _ _ _ => rfl, ?_, fun _ => rfl⟩
  · intro url params status rest h
    simp only [safe_request, if_neg h]
  · intro pages maxCoins pageNo coins hlt hp
    exact fetchCoinsLoop_fail hlt hp

/-- Witness for C6 at concrete inputs. -/
theorem safe_request_classification_witness :
    ((500 : Nat) ≠ 429) ∧
    safe_request "u" [] [.httpError 500] =
      some (.error 500, [("u", [])], 0) ∧
    (((([] : List String).length : Nat) : Int) < 5 ∧
      fetchCoinsLoop (fun _ => none) 5 1 [] = ([], 1)) :=
  ⟨by decide,
    safe_request_classification.2.1 "u" [] 500 [] (by decide),
    by decide,
    safe_request_classification.2.2.2.1 (fun _ => none) 5 1 [] (by decide) rfl⟩

/-- C7: a 429 answered by a 200 on the retry: `safe_request` sleeps the fixed
10-second backoff, re-issues the identical URL and parameters, and returns
the 200 payload to its caller exactly once (one result, two requests,
10 seconds slept). -/
theorem safe_request_retry_on_429 (url : String)
    (params : List (String × String)) (body : String)
    (headers : List (String × String)) (rest : List HttpOutcome) :
    safe_request url params
        (.httpError 429 :: .success body headers :: rest) =
      some (.ok (some body, some headers),
        [(url, params), (url, params)], 10) := rfl

/-- Generic shift lemma: a fold that only appends to its accumulator
distributes over an initial prefix. -/
theorem foldl_append_init {α : Type} (f : List Char → α → List Char)
    (hf : ∀ (a b : List Char) (x : α), f (a ++ b) x = a ++ f b x)
    (l : List α) :
    ∀ (a b : List Char), l.foldl f (a ++ b) = a ++ l.foldl f b := by
  induction l with
  | nil => intro a b; simp
  | cons x xs ih =>
    intro a b
    rw [List.foldl_cons, List.foldl_cons, hf, ih]

/-- `open(filename, 'w')` truncates: after the writes, the filesystem stores
exactly the new content under `filename` and is unchanged elsewhere. -/
def writeFile (fs : String → Option (List Char)) (name : String)
    (content : List Char) : String → Option (List Char) :=
  fun n => if n = name then some content else fs n

/-- The bytes `save_to_tradingview_watchlist` (lines 149-156) writes with
`is_index=False` (each category's data is its ticker list): the header
`###{category_name}\n`, then one `{ticker}\n` line per ticker. -/
def save_content_tickers (categorized_data : List (String × List String)) :
    List Char :=
  categorized_data.foldl
    (fun acc p =>
      p.2.foldl (fun a t => a ++ t.toList ++ ['\n'])
        (acc ++ ('#' :: '#' :: '#' :: p.1.toList) ++ ['\n']))
    []

/-- The bytes written with `is_index=True` (each category's data is its index
string): the header line, then `{data}\n\n` — the index line and a blank
line. -/
def save_content_index (categorized_data : List (String × String)) :
    List Char :=
  categorized_data.foldl
    (fun acc p =>
      acc ++ ('#' :: '#' :: '#' :: p.1.toList) ++ ['\n'] ++ p.2.toList ++
        ['\n', '\n'])
    []

/-- `save_to_tradingview_watchlist(filename, categorized_data,
is_index=False)` acting on the filesystem. -/
def save_to_tradingview_watchlist (fs : String → Option (List Char))
    (filename : String) (categorized_data : List (String × List String)) :
    String → Option (List Char) :=
  writeFile fs filename (save_content_tickers categorized_data)

/-- `save_to_tradingview_watchlist(filename, categorized_data,
is_index=True)` acting on the filesystem. -/
def save_to_tradingview_watchlist_index (fs : String → Option (List Char))
    (filename : String) (categorized_data : List (String × String)) :
    String → Option (List Char) :=
  writeFile fs filename (save_content_index categorized_data)

/-- The lines a reader of a ticker watchlist file sees, category by category:
the `###name` header, then that category's tickers. -/
def linesOfTickers : List (String × List String) → List (List Char)
  | [] => []
  | p :: rest =>
    ('#' :: '#' :: '#' :: p.1.toList) ::
      (p.2.map String.toList ++ linesOfTickers rest)

/-- The lines a reader of an index watchlist file sees: header, index string,
blank line, per category. -/
def linesOfIndex : List (String × String) → List (List Char)
  | [] => []
  | p :: rest =>
    ('#' :: '#' :: '#' :: p.1.toList) :: p.2.toList :: [] :: linesOfIndex rest

/-- Lines joined with a separator after each line (every `file.write` of this
program ends in `\n`). -/
def joinLines (sep : Char) : List (List Char) → List Char
  | [] => []
  | l :: ls => l ++ sep :: joinLines sep ls

theorem joinLines_append (sep : Char) (a b : List (List Char)) :
    joinLines sep (a ++ b) = joinLines sep a ++ joinLines sep b := by
  induction a with
  | nil => rfl
  | cons l ls ih => simp [joinLines, ih, List.append_assoc]

theorem wl_inner_shift (ts : List String) (i : List Char) :
    ts.foldl (fun a t => a ++ t.toList ++ ['\n']) i =
      i ++ ts.foldl (fun a t => a ++ t.toList ++ ['\n']) [] := by
  have h := foldl_append_init (fun a t => a ++ t.toList ++ ['\n'])
    (fun a b x => by simp [List.append_assoc]) ts i []
  simpa using h

theorem wl_outer_shift (cs : List (String × List String)) (i : List Char) :
    cs.foldl
      (fun acc p =>
        p.2.foldl (fun a t => a ++ t.toList ++ ['\n'])
          (acc ++ ('#' :: '#' :: '#' :: p.1.toList) ++ ['\n'])) i =
      i ++ cs.foldl
        (fun acc p =>
          p.2.foldl (fun a t => a ++ t.toList ++ ['\n'])
            (acc ++ ('#' :: '#' :: '#' :: p.1.toList) ++ ['\n'])) [] := by
  have h := foldl_append_init
    (fun acc p =>
      p.2.foldl (fun a t => a ++ t.toList ++ ['\n'])
        (acc ++ ('#' :: '#' :: '#' :: p.1.toList) ++ ['\n']))
    (fun a b p => by
      dsimp only
      rw [wl_inner_shift, wl_inner_shift p.2
        (b ++ ('#' :: '#' :: '#' :: p.1.toList) ++ ['\n'])]
      simp [List.append_assoc])
    cs i []
  simpa using h

theorem wl_index_shift (cs : List (String × String)) (i : List Char) :
    cs.foldl
      (fun acc p =>
        acc ++ ('#' :: '#' :: '#' :: p.1.toList) ++ ['\n'] ++ p.2.toList ++
          ['\n', '\n']) i =
      i ++ cs.foldl
        (fun acc p =>
          acc ++ ('#' :: '#' :: '#' :: p.1.toList) ++ ['\n'] ++ p.2.toList ++
            ['\n', '\n']) [] := by
  have h := foldl_append_init
    (fun acc p =>
      acc ++ ('#' :: '#' :: '#' :: p.1.toList) ++ ['\n'] ++ p.2.toList ++
        ['\n', '\n'])
    (fun a b p => by simp [List.append_assoc]) cs i []
  simpa using h

theorem tickchunk_eq_join (ts : List String) :
    ts.foldl (fun a t => a ++ t.toList ++ ['\n']) [] =
      joinLines '\n' (ts.map String.toList) := by
  induction ts with
  | nil => rfl
  | cons t ts ih =>
    rw [List.foldl_cons, wl_inner_shift, ih]
    simp [joinLines, List.append_assoc]

theorem save_content_tickers_eq_join (cat : List (String × List String)) :
    save_content_tickers cat = joinLines '\n' (linesOfTickers cat) := by
  induction cat with
  | nil => rfl
  | cons p rest ih =>
    unfold save_content_tickers
    rw [List.foldl_cons, wl_outer_shift, wl_inner_shift]
    have hrest : rest.foldl
        (fun acc q =>
          q.2.foldl (fun a t => a ++ t.toList ++ ['\n'])
            (acc ++ ('#' :: '#' :: '#' :: q.1.toList) ++ ['\n'])) [] =
        joinLines '\n' (linesOfTickers rest) := ih
    rw [hrest, tickchunk_eq_join]
    simp [linesOfTickers, joinLines, joinLines_append, List.append_assoc]

theorem save_content_index_eq_join (cat : List (String × String)) :
    save_content_index cat = joinLines '\n' (linesOfIndex cat) := by
  induction cat with
  | nil => rfl
  | cons p rest ih =>
    unfold save_content_index
    rw [List.foldl_cons, wl_index_shift]
    have hrest : rest.foldl
        (fun acc q =>
          acc ++ ('#' :: '#' :: '#' :: q.1.toList) ++ ['\n'] ++ q.2.toList ++
            ['\n', '\n']) [] = joinLines '\n' (linesOfIndex rest) := ih
    rw [hrest]
    simp [linesOfIndex, joinLines, List.append_assoc]

theorem splitOnChar_append_sep (sep : Char) (l1 l2 : List Char)
    (h : sep ∉ l1) :
    splitOnChar sep (l1 ++ sep :: l2) = l1 :: splitOnChar sep l2 := by
  induction l1 with
  | nil => simp [splitOnChar]
  | cons c cs ih =>
    have hc : ¬ (c = sep) := by
      intro hEq
      exact h (by rw [hEq]; exact List.mem_cons_self sep cs)
    simp only [List.cons_append, splitOnChar, if_neg hc, List.append_eq]
    rw [ih (fun hm => h (List.mem_cons_of_mem c hm))]

theorem splitOnChar_joinLines (sep : Char) (lines : List (List Char))
    (h : ∀ l ∈ lines, sep ∉ l) :
    splitOnChar sep (joinLines sep lines) = lines ++ [[]] := by
  induction lines with
  | nil => rfl
  | cons l ls ih =>
    simp only [joinLines]
    rw [splitOnChar_append_sep sep l _ (h l (List.mem_cons_self l ls))]
    rw [ih (fun m hm => h m (List.mem_cons_of_mem l hm))]
    rfl

theorem linesOfTickers_no_newline (cat : List (String × List String))
    (h : ∀ p ∈ cat, ('\n' ∉ p.1.toList) ∧ ∀ t ∈ p.2, '\n' ∉ t.toList) :
    ∀ l ∈ linesOfTickers cat, '\n' ∉ l := by
  induction cat with
  | nil => intro l hl; exact absurd hl (List.not_mem_nil l)
  | cons p rest ih =>
    intro l hl
    simp only [linesOfTickers, List.mem_cons, List.mem_append] at hl
    rcases hl with rfl | hl | hl
    · obtain ⟨h1, _⟩ := h p (List.mem_cons_self p rest)
      intro hm
      simp only [List.mem_cons] at hm
      rcases hm with hm | hm | hm | hm
      · exact absurd hm (by decide)
      · exact absurd hm (by decide)
      · exact absurd hm (by decide)
      · exact h1 hm
    · rw [List.mem_map] at hl
      obtain ⟨t, ht, rfl⟩ := hl
      exact (h p (List.mem_cons_self p rest)).2 t ht
    · exact ih (fun q hq => h q (List.mem_cons_of_mem p hq)) l hl

theorem linesOfIndex_no_newline (cat : List (String × String))
    (h : ∀ p ∈ cat, ('\n' ∉ p.1.toList) ∧ '\n' ∉ p.2.toList) :
    ∀ l ∈ linesOfIndex cat, '\n' ∉ l := by
  induction cat with
  | nil => intro l hl; exact absurd hl (List.not_mem_nil l)
  | cons p rest ih =>
    intro l hl
    simp only [linesOfIndex, List.mem_cons] at hl
    rcases hl with rfl | rfl | rfl | hl
    · obtain ⟨h1, _⟩ := h p (List.mem_cons_self p rest)
      intro hm
      simp only [List.mem_cons] at hm
      rcases hm with hm | hm | hm | hm
      · exact absurd hm (by decide)
      · exact absurd hm (by decide)
      · exact absurd hm (by decide)
      · exact h1 hm
    · exact (h p (List.mem_cons_self p rest)).2
    · exact List.not_mem_nil _
    · exact ih (fun q hq => h q (List.mem_cons_of_mem p hq)) l hl

/-- C8: `save_to_tradingview_watchlist` overwrites the target file with, per
category in iteration order, a `###{category_name}` header followed by one
ticker per line (or, in index mode, the index string and a blank line),
leaving every other file untouched; reading the written file back line by
line reproduces exactly those headers and lines in order (for line-safe
data, i.e. names/tickers/index strings without embedded newlines). -/
theorem save_watchlist_spec :
    (∀ (fs : String → Option (List Char)) (filename : String)
        (cat : List (String × List String)),
      save_to_tradingview_watchlist fs filename cat filename =
        some (save_content_tickers cat) ∧
      ∀ n, n ≠ filename →
        save_to_tradingview_watchlist fs filename cat n = fs n) ∧
    (∀ cat : List (String × List String),
      (∀ p ∈ cat, ('\n' ∉ p.1.toList) ∧ ∀ t ∈ p.2, '\n' ∉ t.toList) →
      splitOnChar '\n' (save_content_tickers cat) =
        linesOfTickers cat ++ [[]]) ∧
    (∀ cat : List (String × String),
      (∀ p ∈ cat, ('\n' ∉ p.1.toList) ∧ '\n' ∉ p.2.toList) →
      splitOnChar '\n' (save_content_index cat) =
        linesOfIndex cat ++ [[]]) := by
  refine ⟨?_, ?_, ?_⟩
  · intro fs filename cat
    constructor
    · simp [save_to_tradingview_watchlist, writeFile]
    · intro n hn
      simp [save_to_tradingview_watchlist, writeFile, hn]
  · intro cat h
    rw [save_content_tickers_eq_join]
    exact splitOnChar_joinLines '\n' (linesOfTickers cat)
      (linesOfTickers_no_newline cat h)
  · intro cat h
    rw [save_content_index_eq_join]
    exact splitOnChar_joinLines '\n' (linesOfIndex cat)
      (linesOfIndex_no_newline cat h)

/-- Witness for C8 at a concrete input. -/
theorem save_watchlist_spec_witness :
    (save_to_tradingview_watchlist (fun _ => none) "f" [("A", ["T1", "T2"])]
        "f" = some (save_content_tickers [("A", ["T1", "T2"])]) ∧
      ∀ n, n ≠ "f" →
        save_to_tradingview_watchlist (fun _ => none) "f" [("A", ["T1", "T2"])]
          n = (fun _ => (none : Option (List Char))) n) ∧
    (∀ p ∈ [("A", ["T1", "T2"])],
      ('\n' ∉ (p : String × List String).1.toList) ∧
        ∀ t ∈ p.2, '\n' ∉ t.toList) ∧
    splitOnChar '\n' (save_content_tickers [("A", ["T1", "T2"])]) =
      linesOfTickers [("A", ["T1", "T2"])] ++ [[]] :=
  ⟨save_watchlist_spec.1 (fun _ => none) "f" [("A", ["T1", "T2"])],
    by decide,
    save_watchlist_spec.2.1 [("A", ["T1", "T2"])] (by decide)⟩

/-- `RateLimiter` (lines 18-33). Time is drawn from a linearly ordered
additive group, covering rational or real timestamps; the concrete runs
below use ℤ. -/
structure RateLimiter (α : Type) where
  requests : List α
  max_requests : Nat
  period : α
deriving DecidableEq, Repr

/-- `RateLimiter.wait` (lines 25-33) under idealized timing: the clock read
on entry is `now`, sleeps wake exactly on time, and the code between the two
`time.monotonic()` reads takes zero time. Prune timestamps strictly older
than `now - period` (line 28 uses `<`, so a timestamp exactly at the window
boundary is kept); if the deque is still full, sleep until
`requests[0] + period` and record that instant, else record `now`. With a
full deque of zero length, `self.requests[0]` raises `IndexError`: `none`
(only reachable when `max_requests = 0`). -/
def RateLimiter.wait {α : Type} [LinearOrderedAddCommGroup α]
    (rl : RateLimiter α) (now : α) : Option (RateLimiter α × α) :=
  let reqs := rl.requests.dropWhile (fun t => decide (t < now - rl.period))
  if rl.max_requests ≤ reqs.length then
    match reqs with
    | [] => none
    | t0 :: _ =>
      some (⟨reqs ++ [t0 + rl.period], rl.max_requests, rl.period⟩,
        t0 + rl.period)
  else
    some (⟨reqs ++ [now], rl.max_requests, rl.period⟩, now)

/-- Run a sequence of `wait()` calls, the i-th entered at clock reading
`entries[i]`, collecting the recorded timestamps. -/
def runWaits {α : Type} [LinearOrderedAddCommGroup α] :
    RateLimiter α → List α → Option (RateLimiter α × List α)
  | rl, [] => some (rl, [])
  | rl, e :: es =>
    match rl.wait e with
    | none => none
    | some (rl2, t) =>
      match runWaits rl2 es with
      | none => none
      | some (rlf, ts) => some (rlf, t :: ts)

/-- A call sequence is feasible when each entry reading is at least the lower
bound `c` (initially the clock's start, afterwards the previous call's
recorded timestamp — the process is single-threaded, so the next `wait`
cannot begin before the previous one returned). -/
def validCalls {α : Type} [LinearOrderedAddCommGroup α] :
    RateLimiter α → α → List α → Bool
  | _, _, [] => true
  | rl, c, e :: es =>
    decide (c ≤ e) &&
      (match rl.wait e with
       | none => false
       | some (rl2, t) => validCalls rl2 t es)

/-- Feasible as in `validCalls`, and additionally no call enters at an
instant lying exactly `period` after a timestamp still in the deque (the
boundary that line 28's strict `<` fails to prune). -/
def validCallsStrict {α : Type} [LinearOrderedAddCommGroup α] :
    RateLimiter α → α → List α → Bool
  | _, _, [] => true
  | rl, c, e :: es =>
    decide (c ≤ e) && rl.requests.all (fun t => decide (t + rl.period ≠ e)) &&
      (match rl.wait e with
       | none => false
       | some (rl2, t) => validCallsStrict rl2 t es)

/-- Number of recorded timestamps inside the half-open trailing window
`(T - period, T]`. -/
def countWindow {α : Type} [LinearOrderedAddCommGroup α]
    (ts : List α) (T period : α) : Nat :=
  ts.countP (fun t => decide (T - period < t) && decide (t ≤ T))

/-- C4 fails as stated: with `max_requests = 1`, `period = 2` and feasible
calls entering at times 0, 0 and 2, the third call finds the timestamp 0
still in the deque (0 < 2 - 2 is false, so the strict `<` of line 28 keeps
it), computes a sleep of `0 + 2 - 2 = 0` seconds, and records a second
timestamp at time 2 — so the trailing window `(0, 2]` holds two recorded
timestamps while `max_requests = 1`. -/
theorem rate_limiter_window_counterexample :
    validCalls (RateLimiter.mk ([] : List ℤ) 1 2) 0 [0, 0, 2] = true ∧
    runWaits (RateLimiter.mk ([] : List ℤ) 1 2) [0, 0, 2] =
      some (RateLimiter.mk [0, 2, 2] 1 2, [0, 2, 2]) ∧
    countWindow ([0, 2, 2] : List ℤ) 2 2 = 2 := by
  refine ⟨by decide, by decide, by decide⟩

theorem sorted_dropWhile_not_lt {α : Type} [LinearOrderedAddCommGroup α]
    (x : α) :
    ∀ l : List α, List.Pairwise (· ≤ ·) l →
      ∀ t ∈ l.dropWhile (fun u => decide (u < x)), ¬ t < x := by
  intro l
  induction l with
  | nil => intro _ t ht; simp at ht
  | cons a l ih =>
    intro hp t ht
    rw [List.pairwise_cons] at hp
    rw [List.dropWhile_cons] at ht
    by_cases ha : a < x
    · rw [if_pos (by simpa using ha)] at ht
      exact ih hp.2 t ht
    · rw [if_neg (by simpa using ha)] at ht
      rcases List.mem_cons.mp ht with rfl | ht'
      · exact ha
      · intro htx
        exact ha (lt_of_le_of_lt (hp.1 t ht') htx)

theorem wait_eq_sleep {α : Type} [LinearOrderedAddCommGroup α]
    {d : List α} {maxR : Nat} {period e t0 : α} {rest : List α}
    (hd : d.dropWhile (fun u => decide (u < e - period)) = t0 :: rest)
    (hfull : maxR ≤ (t0 :: rest).length) :
    RateLimiter.wait ⟨d, maxR, period⟩ e =
      some (⟨(t0 :: rest) ++ [t0 + period], maxR, period⟩, t0 + period) := by
  unfold RateLimiter.wait
  simp only [hd]
  rw [if_pos hfull]

theorem wait_eq_pass {α : Type} [LinearOrderedAddCommGroup α]
    {d : List α} {maxR : Nat} {period e : α}
    (hsize :
      ¬ (maxR ≤ (d.dropWhile (fun u => decide (u < e - period))).length)) :
    RateLimiter.wait ⟨d, maxR, period⟩ e =
      some (⟨d.dropWhile (fun u => decide (u < e - period)) ++ [e],
        maxR, period⟩, e) := by
  unfold RateLimiter.wait
  rw [if_neg hsize]

theorem wait_eq_none {α : Type} [LinearOrderedAddCommGroup α]
    {d : List α} {maxR : Nat} {period e : α}
    (hd : d.dropWhile (fun u => decide (u < e - period)) = [])
    (hfull : maxR ≤ 0) :
    RateLimiter.wait ⟨d, maxR, period⟩ e = none := by
  unfold RateLimiter.wait
  simp only [hd]
  rw [if_pos (by simpa using hfull)]

/-- Main invariant of the rate limiter: running feasible, boundary-tie-free
calls from a state whose deque `d` is the still-tracked suffix of the sorted
record history `dropped ++ d` — every dropped timestamp strictly older than
`c - period`, everything at most the lower bound `c`, every trailing window
holding at most `maxR` records — keeps every trailing window at or below
`maxR`, and records exactly one timestamp per call. -/
theorem runWaits_window_inv {α : Type} [LinearOrderedAddCommGroup α]
    (maxR : Nat) (period : α) :
    ∀ (entries dropped d : List α) (c : α),
      List.Pairwise (· ≤ ·) (dropped ++ d) →
      (∀ t ∈ dropped, t < c - period) →
      (∀ t ∈ dropped ++ d, t ≤ c) →
      (∀ T, countWindow (dropped ++ d) T period ≤ maxR) →
      validCallsStrict ⟨d, maxR, period⟩ c entries = true →
      ∀ rlf ts,
        runWaits ⟨d, maxR, period⟩ entries = some (rlf, ts) →
        (∀ T, countWindow (dropped ++ (d ++ ts)) T period ≤ maxR) ∧
        ts.length = entries.length := by
  intro entries
  induction entries with
  | nil =>
    intro dropped d c _ _ _ hwin _ rlf ts hrun
    simp only [runWaits, Option.some.injEq, Prod.mk.injEq] at hrun
    obtain ⟨-, rfl⟩ := hrun
    exact ⟨fun T => by simpa using hwin T, rfl⟩
  | cons e es ih =>
    intro dropped d c hsort hdrop hle hwin hvalid rlf ts hrun
    simp only [validCallsStrict, Bool.and_eq_true, decide_eq_true_eq,
      List.all_eq_true] at hvalid
    obtain ⟨⟨hc, htie⟩, hrest⟩ := hvalid
    have hsplitd : d.takeWhile (fun u => decide (u < e - period)) ++
        d.dropWhile (fun u => decide (u < e - period)) = d :=
      List.takeWhile_append_dropWhile _ d
    have hdsort : List.Pairwise (· ≤ ·) d := (List.pairwise_append.mp hsort).2.1
    have hpre : ∀ t ∈ d.takeWhile (fun u => decide (u < e - period)),
        t < e - period := by
      intro t ht
      simpa using List.mem_takeWhile_imp ht
    have hpost : ∀ t ∈ d.dropWhile (fun u => decide (u < e - period)),
        ¬ t < e - period := sorted_dropWhile_not_lt (e - period) d hdsort
    have hsubd : ∀ t ∈ d.dropWhile (fun u => decide (u < e - period)),
        t ∈ d := fun t ht =>
      (List.dropWhile_sublist (fun u => decide (u < e - period))).subset ht
    have hpost2 : ∀ t ∈ d.dropWhile (fun u => decide (u < e - period)),
        e - period < t := by
      intro t ht
      rcases lt_or_eq_of_le (not_lt.mp (hpost t ht)) with h1 | h1
      · exact h1
      · exact absurd (by rw [← h1]; exact sub_add_cancel e period)
          (htie t (hsubd t ht))
    have hled' : ∀ t ∈ d.dropWhile (fun u => decide (u < e - period)),
        t ≤ c := fun t ht => hle t (List.mem_append_right dropped (hsubd t ht))
    have hcount : countWindow (dropped ++ d) e period =
        (d.dropWhile (fun u => decide (u < e - period))).length := by
      unfold countWindow
      conv_lhs => rw [← hsplitd]
      rw [← List.append_assoc, List.countP_append, List.countP_append]
      have c1 : dropped.countP
          (fun t => decide (e - period < t) && decide (t ≤ e)) = 0 := by
        rw [List.countP_eq_zero]
        intro t ht
        simp only [Bool.and_eq_true, decide_eq_true_eq, not_and]
        intro hx
        exact absurd hx (not_lt.mpr (le_of_lt
          (lt_of_lt_of_le (hdrop t ht) (sub_le_sub_right hc period))))
      have c2 : (d.takeWhile (fun u => decide (u < e - period))).countP
          (fun t => decide (e - period < t) && decide (t ≤ e)) = 0 := by
        rw [List.countP_eq_zero]
        intro t ht
        simp only [Bool.and_eq_true, decide_eq_true_eq, not_and]
        intro hx
        exact absurd hx (not_lt.mpr (le_of_lt (hpre t ht)))
      have c3 : (d.dropWhile (fun u => decide (u < e - period))).countP
          (fun t => decide (e - period < t) && decide (t ≤ e)) =
          (d.dropWhile (fun u => decide (u < e - period))).length := by
        rw [List.countP_eq_length]
        intro t ht
        simp only [Bool.and_eq_true, decide_eq_true_eq]
        exact ⟨hpost2 t ht, le_trans (hled' t ht) hc⟩
      omega
    by_cases hfull : maxR ≤
        (d.dropWhile (fun u => decide (u < e - period))).length
    · cases hd' : d.dropWhile (fun u => decide (u < e - period)) with
      | nil =>
        rw [hd'] at hfull
        have hwait := wait_eq_none hd' hfull
        simp only [runWaits, hwait] at hrun
        exact Option.noConfusion hrun
      | cons t0 rest =>
        rw [hd'] at hfull
        have hwait := wait_eq_sleep hd' hfull
        simp only [runWaits, hwait] at hrun
        simp only [hwait] at hrest
        have ht0mem : t0 ∈ d.dropWhile (fun u => decide (u < e - period)) := by
          rw [hd']
          exact List.mem_cons_self t0 rest
        have he_lt : e - period < t0 := hpost2 t0 ht0mem
        have he_le_r : e ≤ t0 + period := le_of_lt (sub_lt_iff_lt_add.mp he_lt)
        cases hrec : runWaits
            (⟨(t0 :: rest) ++ [t0 + period], maxR, period⟩ : RateLimiter α)
            es with
        | none =>
          simp only [hrec] at hrun
          exact Option.noConfusion hrun
        | some pr =>
          obtain ⟨rlf2, ts2⟩ := pr
          simp only [hrec, Option.some.injEq, Prod.mk.injEq] at hrun
          obtain ⟨-, rfl⟩ := hrun
          have hflat : (dropped ++
                d.takeWhile (fun u => decide (u < e - period))) ++
              ((t0 :: rest) ++ [t0 + period]) =
              (dropped ++ d) ++ [t0 + period] := by
            conv_rhs => rw [← hsplitd, hd']
            simp only [List.append_assoc, List.cons_append,
              List.singleton_append, List.nil_append]
          have hxle : ∀ x ∈ dropped ++ d, x ≤ t0 + period :=
            fun x hx => le_trans (hle x hx) (le_trans hc he_le_r)
          have hsort2 : List.Pairwise (· ≤ ·) ((dropped ++
              d.takeWhile (fun u => decide (u < e - period))) ++
              ((t0 :: rest) ++ [t0 + period])) := by
            rw [hflat, List.pairwise_append]
            refine ⟨hsort, by simp, ?_⟩
            intro x hx y hy
            simp only [List.mem_singleton] at hy
            subst hy
            exact hxle x hx
          have hdrop2 : ∀ t ∈ dropped ++
              d.takeWhile (fun u => decide (u < e - period)),
              t < (t0 + period) - period := by
            intro t ht
            rw [add_sub_cancel_right]
            rcases List.mem_append.mp ht with ht1 | ht1
            · exact lt_trans (lt_of_lt_of_le (hdrop t ht1)
                (sub_le_sub_right hc period)) he_lt
            · exact lt_trans (hpre t ht1) he_lt
          have hle2 : ∀ t ∈ (dropped ++
              d.takeWhile (fun u => decide (u < e - period))) ++
              ((t0 :: rest) ++ [t0 + period]), t ≤ t0 + period := by
            intro t ht
            rw [hflat] at ht
            rcases List.mem_append.mp ht with ht1 | ht1
            · exact hxle t ht1
            · simp only [List.mem_singleton] at ht1
              exact le_of_eq ht1
          have hlen_le : (t0 :: rest).length ≤ maxR := by
            have h1 := hwin e
            rw [hcount, hd'] at h1
            exact h1
          have hwin2 : ∀ T, countWindow ((dropped ++
              d.takeWhile (fun u => decide (u < e - period))) ++
              ((t0 :: rest) ++ [t0 + period])) T period ≤ maxR := by
            intro T
            rw [hflat]
            unfold countWindow
            rw [List.countP_append]
            by_cases hin : (decide (T - period < t0 + period) &&
                decide (t0 + period ≤ T)) = true
            · simp only [Bool.and_eq_true, decide_eq_true_eq] at hin
              have ht0T : t0 ≤ T - period := le_sub_iff_add_le.mpr hin.2
              have hb1 : (dropped ++ d).countP
                  (fun t => decide (T - period < t) && decide (t ≤ T)) ≤
                  (dropped ++ d).countP (fun t => decide (t0 < t)) := by
                apply List.countP_mono_left
                intro x _ hpx
                simp only [Bool.and_eq_true, decide_eq_true_eq] at hpx
                simp only [decide_eq_true_eq]
                exact lt_of_le_of_lt ht0T hpx.1
              have hb2 : (dropped ++ d).countP
                  (fun t => decide (t0 < t)) ≤ rest.length := by
                conv_lhs => rw [← hsplitd, hd', ← List.append_assoc]
                rw [List.countP_append, List.countP_append]
                have z1 : dropped.countP (fun t => decide (t0 < t)) = 0 := by
                  rw [List.countP_eq_zero]
                  intro t ht
                  simp only [decide_eq_true_eq]
                  exact not_lt.mpr (le_of_lt (lt_trans (lt_of_lt_of_le
                    (hdrop t ht) (sub_le_sub_right hc period)) he_lt))
                have z2 : (d.takeWhile
                    (fun u => decide (u < e - period))).countP
                    (fun t => decide (t0 < t)) = 0 := by
                  rw [List.countP_eq_zero]
                  intro t ht
                  simp only [decide_eq_true_eq]
                  exact not_lt.mpr (le_of_lt (lt_trans (hpre t ht) he_lt))
                have z3 : (t0 :: rest).countP (fun t => decide (t0 < t)) ≤
                    rest.length := by
                  rw [List.countP_cons]
                  have := List.countP_le_length
                    (fun t => decide (t0 < t)) (l := rest)
                  simp only [decide_eq_true_eq, lt_irrefl, if_false]
                  omega
                omega
              have hb3 : ([t0 + period] : List α).countP
                  (fun t => decide (T - period < t) && decide (t ≤ T)) ≤ 1 :=
                List.countP_le_length _
              simp only [List.length_cons] at hlen_le
              omega
            · have hz : ([t0 + period] : List α).countP
                  (fun t => decide (T - period < t) && decide (t ≤ T)) = 0 := by
                rw [List.countP_eq_zero]
                intro a ha
                simp only [List.mem_singleton] at ha
                subst ha
                exact fun hx => hin hx
              rw [hz]
              have := hwin T
              unfold countWindow at this
              omega
          obtain ⟨hW, hL⟩ := ih (dropped ++
              d.takeWhile (fun u => decide (u < e - period)))
            ((t0 :: rest) ++ [t0 + period]) (t0 + period)
            hsort2 hdrop2 hle2 hwin2 hrest rlf2 ts2 hrec
          have hflat2 : (dropped ++
              d.takeWhile (fun u => decide (u < e - period))) ++
              (((t0 :: rest) ++ [t0 + period]) ++ ts2) =
              dropped ++ (d ++ ((t0 + period) :: ts2)) := by
            conv_rhs => rw [← hsplitd, hd']
            simp only [List.append_assoc, List.cons_append,
              List.singleton_append, List.nil_append]
          constructor
          · intro T
            rw [← hflat2]
            exact hW T
          · simp only [List.length_cons, hL, List.length_cons]
    · have hwait := wait_eq_pass hfull
      simp only [runWaits, hwait] at hrun
      simp only [hwait] at hrest
      cases hrec : runWaits
          (⟨d.dropWhile (fun u => decide (u < e - period)) ++ [e],
            maxR, period⟩ : RateLimiter α) es with
      | none =>
        simp only [hrec] at hrun
        exact Option.noConfusion hrun
      | some pr =>
        obtain ⟨rlf2, ts2⟩ := pr
        simp only [hrec, Option.some.injEq, Prod.mk.injEq] at hrun
        obtain ⟨-, rfl⟩ := hrun
        have hflat : (dropped ++
              d.takeWhile (fun u => decide (u < e - period))) ++
            (d.dropWhile (fun u => decide (u < e - period)) ++ [e]) =
            (dropped ++ d) ++ [e] := by
          conv_rhs => rw [← hsplitd]
          simp only [List.append_assoc, List.cons_append,
            List.singleton_append, List.nil_append]
        have hxle : ∀ x ∈ dropped ++ d, x ≤ e :=
          fun x hx => le_trans (hle x hx) hc
        have hsort2 : List.Pairwise (· ≤ ·) ((dropped ++
            d.takeWhile (fun u => decide (u < e - period))) ++
            (d.dropWhile (fun u => decide (u < e - period)) ++ [e])) := by
          rw [hflat, List.pairwise_append]
          refine ⟨hsort, by simp, ?_⟩
          intro x hx y hy
          simp only [List.mem_singleton] at hy
          subst hy
          exact hxle x hx
        have hdrop2 : ∀ t ∈ dropped ++
            d.takeWhile (fun u => decide (u < e - period)),
            t < e - period := by
          intro t ht
          rcases List.mem_append.mp ht with ht1 | ht1
          · exact lt_of_lt_of_le (hdrop t ht1) (sub_le_sub_right hc period)
          · exact hpre t ht1
        have hle2 : ∀ t ∈ (dropped ++
            d.takeWhile (fun u => decide (u < e - period))) ++
            (d.dropWhile (fun u => decide (u < e - period)) ++ [e]),
            t ≤ e := by
          intro t ht
          rw [hflat] at ht
          rcases List.mem_append.mp ht with ht1 | ht1
          · exact hxle t ht1
          · simp only [List.mem_singleton] at ht1
            exact le_of_eq ht1
        have hwin2 : ∀ T, countWindow ((dropped ++
            d.takeWhile (fun u => decide (u < e - period))) ++
            (d.dropWhile (fun u => decide (u < e - period)) ++ [e]))
            T period ≤ maxR := by
          intro T
          rw [hflat]
          unfold countWindow
          rw [List.countP_append]
          by_cases hin : (decide (T - period < e) && decide (e ≤ T)) = true
          · simp only [Bool.and_eq_true, decide_eq_true_eq] at hin
            have hb1 : (dropped ++ d).countP
                (fun t => decide (T - period < t) && decide (t ≤ T)) ≤
                (dropped ++ d).countP
                  (fun t => decide (e - period < t) && decide (t ≤ e)) := by
              apply List.countP_mono_left
              intro x hx hpx
              simp only [Bool.and_eq_true, decide_eq_true_eq] at hpx
              simp only [Bool.and_eq_true, decide_eq_true_eq]
              exact ⟨lt_of_le_of_lt (sub_le_sub_right hin.2 period) hpx.1,
                hxle x hx⟩
            have hb2 := hcount
            unfold countWindow at hb2
            have hb3 : ([e] : List α).countP
                (fun t => decide (T - period < t) && decide (t ≤ T)) ≤ 1 :=
              List.countP_le_length _
            omega
          · have hz : ([e] : List α).countP
                (fun t => decide (T - period < t) && decide (t ≤ T)) = 0 := by
              rw [List.countP_eq_zero]
              intro a ha
              simp only [List.mem_singleton] at ha
              subst ha
              exact fun hx => hin hx
            rw [hz]
            have := hwin T
            unfold countWindow at this
            omega
        obtain ⟨hW, hL⟩ := ih (dropped ++
            d.takeWhile (fun u => decide (u < e - period)))
          (d.dropWhile (fun u => decide (u < e - period)) ++ [e]) e
          hsort2 hdrop2 hle2 hwin2 hrest rlf2 ts2 hrec
        have hflat2 : (dropped ++
            d.takeWhile (fun u => decide (u < e - period))) ++
            ((d.dropWhile (fun u => decide (u < e - period)) ++ [e]) ++ ts2) =
            dropped ++ (d ++ (e :: ts2)) := by
          conv_rhs => rw [← hsplitd]
          simp only [List.append_assoc, List.cons_append,
            List.singleton_append, List.nil_append]
        constructor
        · intro T
          rw [← hflat2]
          exact hW T
        · simp only [List.length_cons, hL, List.length_cons]

/-- C4 (amended): under idealized timing, and provided no `wait()` call
enters at an instant lying exactly `period` after a timestamp still in the
deque (the boundary that line 28's strict `<` keeps, exhibited by the
counterexample), every half-open trailing window `(T - period, T]` over the
recorded timestamps holds at most `max_requests` of them; `wait()` blocks
until the window constraint allows and records exactly one timestamp per
call. -/
theorem rate_limiter_window_invariant {α : Type} [LinearOrderedAddCommGroup α]
    (maxR : Nat) (period : α) (entries : List α) (rlf : RateLimiter α)
    (ts : List α)
    (hvalid : validCallsStrict ⟨[], maxR, period⟩ 0 entries = true)
    (hrun : runWaits ⟨[], maxR, period⟩ entries = some (rlf, ts)) :
    (∀ T, countWindow ts T period ≤ maxR) ∧ ts.length = entries.length := by
  obtain ⟨hW, hL⟩ := runWaits_window_inv maxR period entries [] [] 0
    (by simp) (by simp) (by simp) (by intro T; simp [countWindow]) hvalid
    rlf ts hrun
  exact ⟨fun T => by simpa using hW T, hL⟩

/-- Witness for C4 (amended) on a concrete tie-free run. -/
theorem rate_limiter_window_invariant_witness :
    (validCallsStrict (RateLimiter.mk ([] : List ℤ) 1 2) 0 [0, 0, 5] = true) ∧
    (runWaits (RateLimiter.mk ([] : List ℤ) 1 2) [0, 0, 5] =
      some (RateLimiter.mk [5] 1 2, [0, 2, 5])) ∧
    ((∀ T : ℤ, countWindow ([0, 2, 5] : List ℤ) T 2 ≤ 1) ∧
      ([0, 2, 5] : List ℤ).length = ([0, 0, 5] : List ℤ).length) :=
  ⟨by decide, by decide,
    rate_limiter_window_invariant 1 2 [0, 0, 5] (RateLimiter.mk [5] 1 2)
      [0, 2, 5] (by decide) (by decide)⟩
